import Mathlib

/-!
Verification of the Aurivox frequency-domain multiband WDRC core.

The development shallowly embeds the C++ sources of the repository:
  - config.h          : sample rate, FFT size, band limits, per-band parameters
  - wdrc.cpp / wdrc.h : the per-band Wide Dynamic Range Compression engine
  - multiband_wdrc.cpp/.h : the multiband processor (windowing, forward
    transform, per-bin compression, conjugate-mirror writes, inverse
    transform, normalization)

Floating-point values of the source are embedded as exact real numbers
(band-limit and bin-frequency arithmetic, which is order-theoretic and
exact on the values the program forms, is embedded on the rationals).
The spectral transform is provided by the external arduinoFFT library,
which is not part of this repository; it is modelled from the spec
(section 4.1): a Hamming window applied to the real buffer followed by an
N-point forward transform, and an unnormalized inverse transform whose
forward+inverse round trip scales amplitude by N.
-/

namespace Aurivox

/-- Config constant, config.h line 16: the audio sample rate in Hz. -/
def SAMPLE_RATE : ℕ := 44100

/-- Config constant, config.h line 23: the transform size N. -/
def FFT_SIZE : ℕ := 512

/-- Config constant, config.h line 22: the number of frequency bands. -/
def NUM_BANDS : ℕ := 3

/-- Config table, config.h line 26: band limits in Hz,
BAND_LIMITS = 250, 1000, 4000, 8000.  Embedded on the rationals. -/
def BAND_LIMITS : List ℚ := [250, 1000, 4000, 8000]

/-- The band classifier, multiband_wdrc.cpp lines 100-117
(MultibandWDRC::getBandIndex).  The source scans bands i = 0 .. NUM_BANDS-1
and returns the first i with BAND_LIMITS i <= frequency < BAND_LIMITS (i+1),
and -1 (embedded as none) when no interval matches.  The scan is embedded
structurally over the list of limits: a list of length n+1 yields n bands. -/
def getBandIndex : List ℚ → ℚ → Option ℕ
  | lo :: hi :: rest, f =>
      if lo ≤ f ∧ f < hi then some 0
      else (getBandIndex (hi :: rest) f).map (· + 1)
  | _, _ => none

/-- Bin center frequency, multiband_wdrc.cpp line 145:
frequency = i * SAMPLE_RATE / FFT_SIZE (exact on the rationals). -/
def binFreq (i : ℕ) : ℚ := (i : ℚ) * (SAMPLE_RATE : ℚ) / (FFT_SIZE : ℚ)

/-- Per-band parameter record, config.h lines 29-36 (struct BandParams). -/
structure BandParams where
  threshold : ℝ
  ratio : ℝ
  knee_width : ℝ
  gain : ℝ
  attack_time : ℝ
  release_time : ℝ

/-- Config table, config.h lines 39-46: the three per-band parameter
records (threshold dB, ratio, knee width dB, gain dB, attack s, release s). -/
noncomputable def BAND_PARAMS : List BandParams :=
  [⟨-50, 2, 10, 15, 0.010, 0.100⟩,
   ⟨-45, 3, 8, 10, 0.005, 0.050⟩,
   ⟨-40, 4, 6, 5, 0.003, 0.025⟩]

/-- The per-band compressor state, wdrc.h lines 7-25: smoothing
coefficients, the envelope (in dB), and the static gain-curve parameters. -/
structure WDRC where
  alpha_attack : ℝ
  alpha_release : ℝ
  envelope : ℝ
  threshold : ℝ
  ratio : ℝ
  knee_width : ℝ
  band_gain : ℝ

/-- The WDRC constructor, wdrc.cpp lines 54-60: initializes the envelope
to 0.0.  The remaining members are uninitialized in the source until
setParameters runs; they are embedded as 0 here. -/
def WDRC.initial : WDRC := ⟨0, 0, 0, 0, 0, 0, 0⟩

/-- Parameter configuration, wdrc.cpp lines 62-91 (WDRC::setParameters):
copies the static parameters and derives the envelope smoothing
coefficients alpha = exp (-1 / (SAMPLE_RATE * time)). -/
noncomputable def WDRC.setParameters (w : WDRC) (p : BandParams) : WDRC :=
  { w with
    threshold := p.threshold
    ratio := p.ratio
    knee_width := p.knee_width
    band_gain := p.gain
    alpha_attack := Real.exp (-1 / ((SAMPLE_RATE : ℝ) * p.attack_time))
    alpha_release := Real.exp (-1 / ((SAMPLE_RATE : ℝ) * p.release_time)) }

/-- dB-to-linear conversion, wdrc.cpp lines 94-109: gain = 10 ^ (db / 20). -/
noncomputable def WDRC.db_to_linear (db : ℝ) : ℝ := (10 : ℝ) ^ (db / 20)

/-- Linear-to-dB conversion, wdrc.cpp lines 112-123:
db = 20 * log10 (fabs linear + 1e-9); the 1e-9 offset avoids log 0. -/
noncomputable def WDRC.linear_to_db (linear : ℝ) : ℝ :=
  20 * Real.logb 10 (|linear| + 1e-9)

/-- The envelope detector update, wdrc.cpp lines 152-159: a one-pole
smoother with the attack coefficient when the input level rises above the
envelope and the release coefficient otherwise. -/
noncomputable def WDRC.updateEnvelope (w : WDRC) (input_db : ℝ) : ℝ :=
  if input_db > w.envelope then
    w.alpha_attack * w.envelope + (1 - w.alpha_attack) * input_db
  else
    w.alpha_release * w.envelope + (1 - w.alpha_release) * input_db

/-- The soft-knee compression gain, wdrc.cpp lines 161-189, as a function
of diff = envelope - threshold: the quadratic knee formula when
fabs diff <= knee_width / 2, the linear full-compression formula when
diff > knee_width / 2, and 0 otherwise. -/
noncomputable def WDRC.compressionGain (w : WDRC) (diff : ℝ) : ℝ :=
  if |diff| ≤ w.knee_width / 2 then
    (w.ratio - 1) * (diff + w.knee_width / 2) * (diff + w.knee_width / 2) /
      (2 * w.knee_width)
  else if diff > w.knee_width / 2 then
    (w.ratio - 1) * diff
  else 0

/-- One compression step, wdrc.cpp lines 126-199 (WDRC::process): convert
the input to dB, update the envelope, compute the gain reduction, apply
the total gain, and hard-clip the result to the interval -0.99 .. 0.99
with two sequential comparisons as in the source.  The mutated envelope
member is returned alongside the output sample. -/
noncomputable def WDRC.process (w : WDRC) (input : ℝ) : WDRC × ℝ :=
  let input_db := WDRC.linear_to_db input
  let envelope := w.updateEnvelope input_db
  let diff := envelope - w.threshold
  let gain_db := w.compressionGain diff
  let output := input * WDRC.db_to_linear (-gain_db + w.band_gain)
  let output' := if output > 0.99 then (0.99 : ℝ) else output
  let output'' := if output' < -0.99 then (-0.99 : ℝ) else output'
  ({ w with envelope := envelope }, output'')

/-- Definedness-instrumented replay of WDRC::process (wdrc.cpp lines
126-199): identical arithmetic, but an arithmetic step that is undefined
on the reals and non-finite in the source's floating point - the log of a
nonpositive number in linear_to_db, or the knee-region division when its
denominator 2 * knee_width is zero - returns none instead of a value. -/
noncomputable def WDRC.processChecked (w : WDRC) (input : ℝ) : Option (WDRC × ℝ) :=
  if |input| + 1e-9 ≤ 0 then none
  else
    let input_db := WDRC.linear_to_db input
    let envelope := w.updateEnvelope input_db
    let diff := envelope - w.threshold
    let gain? : Option ℝ :=
      if |diff| ≤ w.knee_width / 2 then
        if 2 * w.knee_width = 0 then none
        else some ((w.ratio - 1) * (diff + w.knee_width / 2) *
          (diff + w.knee_width / 2) / (2 * w.knee_width))
      else if diff > w.knee_width / 2 then some ((w.ratio - 1) * diff)
      else some 0
    gain?.map fun gain_db =>
      let output := input * WDRC.db_to_linear (-gain_db + w.band_gain)
      let output' := if output > 0.99 then (0.99 : ℝ) else output
      let output'' := if output' < -0.99 then (-0.99 : ℝ) else output'
      ({ w with envelope := envelope }, output'')

/-- n successive calls to WDRC::process on the same constant input sample,
threading the envelope state (wdrc.cpp lines 126-199). -/
noncomputable def WDRC.iterate (w : WDRC) (x : ℝ) : ℕ → WDRC
  | 0 => w
  | n + 1 => ((w.iterate x n).process x).1

/-- Modelled from the spec (section 4.1): the N-point forward transform of
the external arduinoFFT library (not part of this repository), on a
complex-valued view of the real/imaginary work buffers. -/
noncomputable def dftFun (N : ℕ) (c : ℕ → ℂ) : ℕ → ℂ := fun j =>
  ∑ k ∈ Finset.range N, c k * Complex.exp (-(2 * Real.pi * Complex.I * j * k) / N)

/-- Modelled from the spec (section 4.1): the unnormalized N-point inverse
transform of the external arduinoFFT library (not part of this
repository); the forward+inverse round trip scales amplitude by N, and
the caller divides by N (multiband_wdrc.cpp line 173). -/
noncomputable def idftFun (N : ℕ) (c : ℕ → ℂ) : ℕ → ℂ := fun k =>
  ∑ j ∈ Finset.range N, c j * Complex.exp (2 * Real.pi * Complex.I * j * k / N)

/-- Modelled from the spec (section 4.1): the Hamming window factor
applied by the external arduinoFFT windowing call for sample index i of
an N-sample buffer. -/
noncomputable def hammingW (N i : ℕ) : ℝ :=
  0.54 - 0.46 * Real.cos (2 * Real.pi * i / ((N : ℝ) - 1))

/-- atan2 on the embedding: the phase angle of the complex number with
the given imaginary and real parts, in the interval -pi .. pi, matching
the atan2 call of multiband_wdrc.cpp line 151. -/
noncomputable def atan2 (y x : ℝ) : ℝ := Complex.arg ⟨x, y⟩

/-- The mutable state of the per-bin loop of MultibandWDRC::process: the
real and imaginary work buffers (multiband_wdrc.h lines 12-13) and the
array of per-band compressors (multiband_wdrc.h line 11), indexed by band. -/
structure MBState where
  real : ℕ → ℝ
  imag : ℕ → ℝ
  bands : ℕ → WDRC

/-- One iteration of the per-bin loop, multiband_wdrc.cpp lines 143-166:
classify the bin frequency; on a match, compress the bin magnitude with
the band's WDRC, rebuild the bin from the new magnitude and the old
phase, and for i different from 0 write the conjugate mirror at index
FFT_SIZE - i; on no match, leave the state untouched. -/
noncomputable def binStep (limits : List ℚ) (s : MBState) (i : ℕ) : MBState :=
  match getBandIndex limits (binFreq i) with
  | none => s
  | some band =>
      let mag := Real.sqrt (s.real i * s.real i + s.imag i * s.imag i)
      let phase := atan2 (s.imag i) (s.real i)
      let res := (s.bands band).process mag
      let re' := Function.update s.real i (res.2 * Real.cos phase)
      let im' := Function.update s.imag i (res.2 * Real.sin phase)
      let re'' := if i ≠ 0 then Function.update re' (FFT_SIZE - i) (re' i) else re'
      let im'' := if i ≠ 0 then Function.update im' (FFT_SIZE - i) (-im' i) else im'
      ⟨re'', im'', Function.update s.bands band res.1⟩

/-- The per-bin loop of MultibandWDRC::process, multiband_wdrc.cpp lines
143-166: bins i = 0 .. FFT_SIZE/2 - 1 in ascending order. -/
noncomputable def binLoop (limits : List ℚ) (s : MBState) : MBState :=
  (List.range (FFT_SIZE / 2)).foldl (binStep limits) s

/-- MultibandWDRC::process, multiband_wdrc.cpp lines 120-175: copy and
zero-pad the input block into the real buffer and zero the imaginary
buffer (lines 133-136), apply the Hamming window and the forward
transform (lines 139-140; spec-modelled, see dftFun), run the per-bin
loop (lines 143-166), run the inverse transform (line 169; spec-modelled,
see idftFun), and emit output k = real k / FFT_SIZE for k below size
(lines 172-174).  The band-limit table and the compressor array are
passed explicitly (spec section 9 replaces the source's global tables
with constructor-supplied configuration); the updated compressor array is
returned alongside the output block. -/
noncomputable def mbProcess (limits : List ℚ) (bands : ℕ → WDRC)
    (input : ℕ → ℝ) (size : ℕ) : (ℕ → ℝ) × (ℕ → WDRC) :=
  let re0 : ℕ → ℝ := fun i => if i < size then input i else 0
  let im0 : ℕ → ℝ := fun _ => 0
  let rew : ℕ → ℝ := fun i => hammingW FFT_SIZE i * re0 i
  let spec : ℕ → ℂ := dftFun FFT_SIZE fun i => ⟨rew i, im0 i⟩
  let s1 : MBState := ⟨fun i => (spec i).re, fun i => (spec i).im, bands⟩
  let s2 := binLoop limits s1
  let out : ℕ → ℂ := idftFun FFT_SIZE fun i => ⟨s2.real i, s2.imag i⟩
  (fun k => (out k).re / (FFT_SIZE : ℝ), s2.bands)

/-- A concrete compressor state used in witnesses: smoothing coefficients
1/2, envelope 0, threshold 0, ratio 2, knee width 10, band gain 0. -/
noncomputable def wGood : WDRC := ⟨1/2, 1/2, 0, 0, 2, 10, 0⟩

/-- A concrete compressor state with a zero knee width (allowed by the
claimed parameter range knee_width_db >= 0): smoothing coefficients 1/2,
envelope 0, threshold 0, ratio 2, knee width 0, band gain 0. -/
noncomputable def wZeroKnee : WDRC := ⟨1/2, 1/2, 0, 0, 2, 0, 0⟩

/-- The band-0 compressor of the concrete scenario: parameters of
BAND_PARAMS band 0 (threshold -50 dB, ratio 2, knee 10 dB, gain 15 dB,
attack 0.010 s, release 0.100 s) with the envelope standing at -30 dB. -/
noncomputable def wScenario : WDRC :=
  { WDRC.initial.setParameters ⟨-50, 2, 10, 15, 0.010, 0.100⟩ with envelope := -30 }

/-- A concrete per-bin loop state used in witnesses: all-ones real
buffer, zero imaginary buffer, freshly constructed compressors. -/
noncomputable def sExample : MBState := ⟨fun _ => 1, fun _ => 0, fun _ => WDRC.initial⟩

/-- A concrete all-ones input block used in witnesses (a normalized
full-scale sample). -/
def onesInput : ℕ → ℝ := fun _ => 1

/-- A concrete compressor array used in witnesses: every band holds a
freshly constructed compressor. -/
def initialBands : ℕ → WDRC := fun _ => WDRC.initial

/-- C5: the soft-knee gain curve of wdrc.cpp lines 182-189 is continuous
at both knee edges for every positive knee width and every ratio: at
diff = knee_width/2 the knee branch agrees with the linear
full-compression formula (ratio - 1) * diff, and at diff = -knee_width/2
it agrees with the below-threshold value 0. -/
theorem knee_continuity (w : WDRC) (hk : 0 < w.knee_width) :
    w.compressionGain (w.knee_width / 2) = (w.ratio - 1) * (w.knee_width / 2) ∧
      w.compressionGain (-(w.knee_width / 2)) = 0 := by
  unfold WDRC.compressionGain
  constructor
  · rw [if_pos (by rw [abs_of_nonneg (by linarith)])]
    field_simp
    ring
  · rw [if_pos (by rw [abs_neg, abs_of_nonneg (by linarith)])]
    rw [neg_add_cancel]
    ring

/-- Witness for C5 at the concrete state wGood with knee width 10. -/
theorem knee_continuity_witness :
    0 < wGood.knee_width ∧
      (wGood.compressionGain (wGood.knee_width / 2) =
          (wGood.ratio - 1) * (wGood.knee_width / 2) ∧
        wGood.compressionGain (-(wGood.knee_width / 2)) = 0) :=
  ⟨by norm_num [wGood], knee_continuity wGood (by norm_num [wGood])⟩

/-- Helper: 2 < log 10, from the decimal bound on exp 1. -/
theorem two_lt_log_ten : (2 : ℝ) < Real.log 10 := by
  have h1 : Real.exp 2 < 10 := by
    have hd := Real.exp_one_lt_d9
    have h2 : Real.exp 2 = Real.exp 1 * Real.exp 1 := by
      rw [← Real.exp_add]; norm_num
    nlinarith [Real.exp_pos 1]
  calc (2 : ℝ) = Real.log (Real.exp 2) := (Real.log_exp 2).symm
    _ < Real.log 10 := Real.log_lt_log (Real.exp_pos 2) h1

/-- Helper: the dB value of a full-scale sample, 20 * log10 (1 + 1e-9),
is strictly between 0 and 1e-8. -/
theorem linear_to_db_one_bounds :
    0 < WDRC.linear_to_db 1 ∧ WDRC.linear_to_db 1 < 1e-8 := by
  unfold WDRC.linear_to_db
  rw [abs_one]
  constructor
  · have h := Real.logb_pos (b := 10) (by norm_num) (x := 1 + 1e-9) (by norm_num)
    linarith
  · have hlog : Real.log (1 + 1e-9) < 1e-9 := by
      have h := Real.log_lt_sub_one_of_pos (x := 1 + 1e-9) (by norm_num) (by norm_num)
      linarith
    have hpos : 0 < Real.log (1 + 1e-9) := Real.log_pos (by norm_num)
    have hlb : Real.logb 10 (1 + 1e-9) < 1e-9 / 2 := by
      rw [← Real.log_div_log]
      rw [div_lt_div_iff₀ (lt_trans (by norm_num) two_lt_log_ten) (by norm_num)]
      nlinarith [two_lt_log_ten]
    linarith

/-- C10: the WDRC constructor (wdrc.cpp lines 54-60) initializes the
envelope to 0.0; on the program's dB scale 0 dB is the full-scale level
(linear magnitude 1 maps within 1e-8 of 0 dB) and not a silence level
(linear magnitude 0 maps to exactly -180 dB), so the first calls to
process compute their gain against a full-scale starting envelope. -/
theorem initial_envelope_full_scale :
    WDRC.initial.envelope = 0 ∧
      WDRC.linear_to_db 0 = -180 ∧
      (0 < WDRC.linear_to_db 1 ∧ WDRC.linear_to_db 1 < 1e-8) := by
  refine ⟨rfl, ?_, linear_to_db_one_bounds⟩
  unfold WDRC.linear_to_db
  rw [abs_zero, zero_add]
  have hne : Real.log 10 ≠ 0 := by
    have := two_lt_log_ten; linarith
  have h9 : ((1e-9 : ℝ)) = ((10 : ℝ) ^ (9 : ℕ))⁻¹ := by norm_num
  rw [h9, ← Real.log_div_log, Real.log_inv, Real.log_pow]
  field_simp
  ring

/-- Helper: the classifier scan of multiband_wdrc.cpp lines 111-115
returns some i exactly when interval i is the first one (in ascending
index order) whose half-open range contains the frequency. -/
theorem getBandIndex_first_match (limits : List ℚ) (f : ℚ) :
    ∀ i : ℕ, getBandIndex limits f = some i ↔
      ((∃ lo hi, limits[i]? = some lo ∧ limits[i + 1]? = some hi ∧ lo ≤ f ∧ f < hi) ∧
        ∀ j, j < i →
          ¬∃ lo hi, limits[j]? = some lo ∧ limits[j + 1]? = some hi ∧ lo ≤ f ∧ f < hi) := by
  induction limits with
  | nil => intro i; simp [getBandIndex]
  | cons lo rest ih =>
    cases rest with
    | nil =>
      intro i
      constructor
      · intro h; simp [getBandIndex] at h
      · rintro ⟨⟨a, b, ha, hb, -, -⟩, -⟩
        rcases i with _ | i' <;> simp_all
    | cons hi rest' =>
      intro i
      by_cases hc : lo ≤ f ∧ f < hi
      · rcases i with _ | i'
        · simp only [getBandIndex, if_pos hc]
          constructor
          · intro _
            exact ⟨⟨lo, hi, by simp, by simp, hc.1, hc.2⟩, fun j hj => absurd hj (Nat.not_lt_zero j)⟩
          · intro _; trivial
        · simp only [getBandIndex, if_pos hc]
          constructor
          · intro h; exact absurd h (by simp)
          · rintro ⟨-, hmin⟩
            exact absurd ⟨lo, hi, by simp, by simp, hc.1, hc.2⟩ (hmin 0 (Nat.succ_pos i'))
      · rcases i with _ | i'
        · simp only [getBandIndex, if_neg hc]
          constructor
          · intro h
            rcases Option.map_eq_some'.mp h with ⟨a, -, ha2⟩
            exact absurd ha2 (by omega)
          · rintro ⟨⟨a, b, ha, hb, h1, h2⟩, -⟩
            simp only [List.getElem?_cons_zero, List.getElem?_cons_succ] at ha hb
            obtain rfl : lo = a := Option.some.inj ha
            obtain rfl : hi = b := Option.some.inj hb
            exact absurd ⟨h1, h2⟩ hc
        · simp only [getBandIndex, if_neg hc]
          have hmap : (getBandIndex (hi :: rest') f).map (· + 1) = some (i' + 1) ↔
              getBandIndex (hi :: rest') f = some i' := by
            constructor
            · intro h
              rcases Option.map_eq_some'.mp h with ⟨a, ha, hb⟩
              obtain rfl : a = i' := by omega
              exact ha
            · intro h; rw [h]; rfl
          rw [hmap, ih i']
          constructor
          · rintro ⟨⟨a, b, ha, hb, h1, h2⟩, hmin⟩
            refine ⟨⟨a, b, by simpa using ha, by simpa using hb, h1, h2⟩, ?_⟩
            intro j hj
            rcases j with _ | j'
            · rintro ⟨a', b', ha', hb', h1', h2'⟩
              simp only [List.getElem?_cons_zero, List.getElem?_cons_succ] at ha' hb'
              obtain rfl : lo = a' := Option.some.inj ha'
              obtain rfl : hi = b' := Option.some.inj hb'
              exact hc ⟨h1', h2'⟩
            · rintro ⟨a', b', ha', hb', h1', h2'⟩
              exact hmin j' (by omega) ⟨a', b', by simpa using ha', by simpa using hb', h1', h2'⟩
          · rintro ⟨⟨a, b, ha, hb, h1, h2⟩, hmin⟩
            refine ⟨⟨a, b, by simpa using ha, by simpa using hb, h1, h2⟩, ?_⟩
            intro j hj
            rintro ⟨a', b', ha', hb', h1', h2'⟩
            exact hmin (j + 1) (by omega)
              ⟨a', b', by simpa using ha', by simpa using hb', h1', h2'⟩

/-- C3: the band classifier returns the first band index whose half-open
interval contains the frequency, none below the lowest boundary and at or
above the highest boundary; for the program's table 250, 1000, 4000, 8000
the classification is the explicit three-interval case split, a frequency
exactly on an interior boundary (1000) belongs to the upper band (index
1), 249.999 classifies as none, and 8000 classifies as none. -/
theorem band_classifier_rule :
    (∀ (limits : List ℚ) (f : ℚ) (i : ℕ), getBandIndex limits f = some i ↔
        ((∃ lo hi, limits[i]? = some lo ∧ limits[i + 1]? = some hi ∧ lo ≤ f ∧ f < hi) ∧
          ∀ j, j < i →
            ¬∃ lo hi, limits[j]? = some lo ∧ limits[j + 1]? = some hi ∧ lo ≤ f ∧ f < hi)) ∧
      (∀ f : ℚ, getBandIndex BAND_LIMITS f =
        if 250 ≤ f ∧ f < 1000 then some 0
        else if 1000 ≤ f ∧ f < 4000 then some 1
        else if 4000 ≤ f ∧ f < 8000 then some 2
        else none) ∧
      getBandIndex BAND_LIMITS 1000 = some 1 ∧
      getBandIndex BAND_LIMITS 249.999 = none ∧
      getBandIndex BAND_LIMITS 8000 = none := by
  refine ⟨fun limits f i => getBandIndex_first_match limits f i, fun f => ?_,
    by norm_num [BAND_LIMITS, getBandIndex], by norm_num [BAND_LIMITS, getBandIndex],
    by norm_num [BAND_LIMITS, getBandIndex]⟩
  show getBandIndex [250, 1000, 4000, 8000] f = _
  simp only [getBandIndex]
  split_ifs <;> simp_all

/-- Counterexample to C4 as stated: the claimed parameter range allows
knee_width_db = 0, and with knee width 0 and envelope equal to the
threshold the knee branch of wdrc.cpp line 185 divides by 2 * 0 = 0
(0.0/0.0, a NaN in the source's floating point), so process does not
yield a defined value: the instrumented replay returns none.  All the
claim's side conditions (ratio >= 1, knee width >= 0, smoothing
coefficients strictly between 0 and 1) hold at this input. -/
theorem knee_zero_division_cex :
    (1 ≤ wZeroKnee.ratio ∧ 0 ≤ wZeroKnee.knee_width ∧
      0 < wZeroKnee.alpha_attack ∧ wZeroKnee.alpha_attack < 1 ∧
      0 < wZeroKnee.alpha_release ∧ wZeroKnee.alpha_release < 1) ∧
      WDRC.processChecked wZeroKnee (1 - 1e-9) = none := by
  have habs : |(1 - 1e-9 : ℝ)| = 1 - 1e-9 := abs_of_nonneg (by norm_num)
  have hdb : WDRC.linear_to_db (1 - 1e-9) = 0 := by
    unfold WDRC.linear_to_db
    rw [habs]
    norm_num [Real.logb_one]
  refine ⟨by norm_num [wZeroKnee], ?_⟩
  simp only [WDRC.processChecked, WDRC.updateEnvelope, hdb, wZeroKnee]
  norm_num

/-- C4 amended: for every finite input and every parameter set with
ratio >= 1, strictly positive knee width and smoothing coefficients in
(0, 1), every arithmetic step of WDRC::process is defined: the 1e-9
offset keeps the log argument positive for every input, and the knee
denominator 2 * knee_width is nonzero, so the instrumented replay returns
exactly the value of process. -/
theorem process_defined_of_knee_pos (w : WDRC) (x : ℝ)
    (hr : 1 ≤ w.ratio) (hk : 0 < w.knee_width)
    (ha1 : 0 < w.alpha_attack) (ha2 : w.alpha_attack < 1)
    (hb1 : 0 < w.alpha_release) (hb2 : w.alpha_release < 1) :
    w.processChecked x = some (w.process x) := by
  have hguard : ¬(|x| + 1e-9 ≤ 0) := by
    push_neg
    positivity
  have h2 : (2 : ℝ) * w.knee_width ≠ 0 := by positivity
  simp only [WDRC.processChecked, WDRC.process]
  rw [if_neg hguard]
  unfold WDRC.compressionGain
  by_cases h1 : |w.updateEnvelope (WDRC.linear_to_db x) - w.threshold| ≤ w.knee_width / 2
  · rw [if_pos h1, if_pos h1, if_neg h2]
    rfl
  · rw [if_neg h1, if_neg h1]
    by_cases h3 : w.updateEnvelope (WDRC.linear_to_db x) - w.threshold > w.knee_width / 2
    · rw [if_pos h3, if_pos h3]
      rfl
    · rw [if_neg h3, if_neg h3]
      rfl

/-- Witness for the amended C4 at the concrete state wGood and input 1. -/
theorem process_defined_witness :
    (1 ≤ wGood.ratio ∧ 0 < wGood.knee_width ∧ 0 < wGood.alpha_attack ∧
      wGood.alpha_attack < 1 ∧ 0 < wGood.alpha_release ∧ wGood.alpha_release < 1) ∧
      WDRC.processChecked wGood 1 = some (WDRC.process wGood 1) :=
  ⟨by norm_num [wGood],
    process_defined_of_knee_pos wGood 1 (by norm_num [wGood]) (by norm_num [wGood])
      (by norm_num [wGood]) (by norm_num [wGood]) (by norm_num [wGood]) (by norm_num [wGood])⟩

/-- Helper: iterating process never changes the smoothing coefficients;
WDRC::process mutates only the envelope member (wdrc.cpp lines 153-159). -/
theorem iterate_preserves_alphas (w : WDRC) (x : ℝ) :
    ∀ n, (w.iterate x n).alpha_attack = w.alpha_attack ∧
      (w.iterate x n).alpha_release = w.alpha_release := by
  intro n
  induction n with
  | zero => exact ⟨rfl, rfl⟩
  | succ n ih => exact ih

/-- Helper: one call to process moves the envelope toward the input dB
level, contracting the distance by the branch coefficient, hence by any
common upper bound of the two coefficients. -/
theorem envelope_step_contract (w' : WDRC) (x : ℝ) (β : ℝ)
    (ha : 0 ≤ w'.alpha_attack) (hb : 0 ≤ w'.alpha_release)
    (hma : w'.alpha_attack ≤ β) (hmb : w'.alpha_release ≤ β) :
    |((w'.process x).1).envelope - WDRC.linear_to_db x| ≤
      β * |w'.envelope - WDRC.linear_to_db x| := by
  have hfst : ((w'.process x).1).envelope = w'.updateEnvelope (WDRC.linear_to_db x) := rfl
  rw [hfst]
  set d := WDRC.linear_to_db x with hd
  unfold WDRC.updateEnvelope
  split_ifs with h
  · have e1 : w'.alpha_attack * w'.envelope + (1 - w'.alpha_attack) * d - d
        = w'.alpha_attack * (w'.envelope - d) := by ring
    rw [e1, abs_mul, abs_of_nonneg ha]
    exact mul_le_mul_of_nonneg_right hma (abs_nonneg _)
  · have e1 : w'.alpha_release * w'.envelope + (1 - w'.alpha_release) * d - d
        = w'.alpha_release * (w'.envelope - d) := by ring
    rw [e1, abs_mul, abs_of_nonneg hb]
    exact mul_le_mul_of_nonneg_right hmb (abs_nonneg _)

/-- Helper: after n calls on a constant input the envelope distance to
the input dB level has contracted by the n-th power of the larger
smoothing coefficient. -/
theorem envelope_iterate_bound (w : WDRC) (x : ℝ)
    (ha : 0 ≤ w.alpha_attack) (hb : 0 ≤ w.alpha_release) :
    ∀ n, |(w.iterate x n).envelope - WDRC.linear_to_db x| ≤
      (max w.alpha_attack w.alpha_release) ^ n *
        |w.envelope - WDRC.linear_to_db x| := by
  intro n
  set β := max w.alpha_attack w.alpha_release with hβ
  have hβ0 : 0 ≤ β := le_trans ha (le_max_left _ _)
  induction n with
  | zero => simp [WDRC.iterate]
  | succ n ih =>
    have hpres := iterate_preserves_alphas w x n
    have hstep := envelope_step_contract (w.iterate x n) x β
      (hpres.1.symm ▸ ha) (hpres.2.symm ▸ hb)
      (hpres.1.symm ▸ le_max_left _ _) (hpres.2.symm ▸ le_max_right _ _)
    calc |(w.iterate x (n + 1)).envelope - WDRC.linear_to_db x|
        ≤ β * |(w.iterate x n).envelope - WDRC.linear_to_db x| := hstep
      _ ≤ β * (β ^ n * |w.envelope - WDRC.linear_to_db x|) :=
          mul_le_mul_of_nonneg_left ih hβ0
      _ = β ^ (n + 1) * |w.envelope - WDRC.linear_to_db x| := by ring

/-- C7: for every compressor whose smoothing coefficients lie strictly
between 0 and 1 (the case for any positive time constant and positive
sample rate), feeding the same constant input in successive calls to
WDRC::process drives the envelope to within 0.01 dB of the input dB
level once the call count is large enough; each call contracts the error
by the attack or release coefficient (wdrc.cpp lines 153-159). -/
theorem envelope_convergence (w : WDRC) (x : ℝ)
    (ha1 : 0 < w.alpha_attack) (ha2 : w.alpha_attack < 1)
    (hb1 : 0 < w.alpha_release) (hb2 : w.alpha_release < 1) :
    ∃ N, ∀ n, N ≤ n →
      |(w.iterate x n).envelope - WDRC.linear_to_db x| ≤ 0.01 := by
  set β := max w.alpha_attack w.alpha_release with hβ
  set E := |w.envelope - WDRC.linear_to_db x| with hE
  have hE0 : 0 ≤ E := abs_nonneg _
  have hE1 : (0 : ℝ) < E + 1 := by linarith
  have hβ0 : 0 ≤ β := le_trans ha1.le (le_max_left _ _)
  have hβ1 : β < 1 := max_lt ha2 hb2
  obtain ⟨n₀, hn₀⟩ :=
    exists_pow_lt_of_lt_one (div_pos (show (0 : ℝ) < 0.01 by norm_num) hE1) hβ1
  refine ⟨n₀, fun n hn => ?_⟩
  have hbound := envelope_iterate_bound w x ha1.le hb1.le n
  have hmono : β ^ n ≤ β ^ n₀ := pow_le_pow_of_le_one hβ0 hβ1.le hn
  calc |(w.iterate x n).envelope - WDRC.linear_to_db x| ≤ β ^ n * E := hbound
    _ ≤ (0.01 / (E + 1)) * E :=
        mul_le_mul_of_nonneg_right (le_trans hmono hn₀.le) hE0
    _ ≤ 0.01 := by
        rw [div_mul_eq_mul_div, div_le_iff₀ hE1]
        nlinarith

/-- Witness for C7 at the concrete state wGood and constant input 1. -/
theorem envelope_convergence_witness :
    ∃ N, ∀ n, N ≤ n →
      |(wGood.iterate 1 n).envelope - WDRC.linear_to_db 1| ≤ 0.01 :=
  envelope_convergence wGood 1 (by norm_num [wGood]) (by norm_num [wGood])
    (by norm_num [wGood]) (by norm_num [wGood])

/-- Helper frame lemma for the per-bin loop: folding binStep over any
list of indices below FFT_SIZE/2 leaves untouched every buffer position
that is either a none-classified bin below FFT_SIZE/2 or the Nyquist
position FFT_SIZE/2, because a matched bin i writes only positions i
(some-classified) and FFT_SIZE - i (strictly above FFT_SIZE/2). -/
theorem foldl_binStep_frame (limits : List ℚ) :
    ∀ (l : List ℕ), (∀ j ∈ l, j < FFT_SIZE / 2) → ∀ (s : MBState) (t : ℕ),
      ((t < FFT_SIZE / 2 ∧ getBandIndex limits (binFreq t) = none) ∨ t = FFT_SIZE / 2) →
      (l.foldl (binStep limits) s).real t = s.real t ∧
        (l.foldl (binStep limits) s).imag t = s.imag t := by
  intro l
  induction l with
  | nil => intro _ s t _; exact ⟨rfl, rfl⟩
  | cons j l ih =>
    intro hl s t ht
    have hj : j < FFT_SIZE / 2 := hl j (List.mem_cons_self j l)
    have hrest : ∀ i ∈ l, i < FFT_SIZE / 2 := fun i hi => hl i (List.mem_cons_of_mem j hi)
    have h512 : FFT_SIZE = 512 := rfl
    have hstep : (binStep limits s j).real t = s.real t ∧
        (binStep limits s j).imag t = s.imag t := by
      rcases hcl : getBandIndex limits (binFreq j) with - | band
      · simp [binStep, hcl]
      · have htj : t ≠ j := by
          rcases ht with ⟨hlt, hnone⟩ | heq
          · intro he
            rw [he] at hnone
            rw [hnone] at hcl
            exact Option.noConfusion hcl
          · intro he
            rw [← he] at hj
            omega
        simp only [binStep, hcl]
        by_cases hj0 : j = 0
        · subst hj0
          simp only [ne_eq, not_true_eq_false, if_false]
          exact ⟨Function.update_noteq htj _ _, Function.update_noteq htj _ _⟩
        · have htm : t ≠ FFT_SIZE - j := by
            rcases ht with ⟨hlt, -⟩ | heq <;> omega
          simp only [ne_eq, hj0, not_false_eq_true, if_true]
          constructor
          · calc (Function.update (Function.update s.real j _) (FFT_SIZE - j) _) t
                = Function.update s.real j _ t := Function.update_noteq htm _ _
              _ = s.real t := Function.update_noteq htj _ _
          · calc (Function.update (Function.update s.imag j _) (FFT_SIZE - j) _) t
                = Function.update s.imag j _ t := Function.update_noteq htm _ _
              _ = s.imag t := Function.update_noteq htj _ _
    rw [List.foldl_cons]
    have hrec := ih hrest (binStep limits s j) t ht
    exact ⟨hrec.1.trans hstep.1, hrec.2.trans hstep.2⟩

/-- C8: in the per-bin loop of MultibandWDRC::process (lines 143-166),
every bin below FFT_SIZE/2 whose frequency classifies as none keeps its
real and imaginary values unchanged, and the Nyquist bin at index
FFT_SIZE/2 is never classified nor written: the loop covers only indices
below FFT_SIZE/2 and the mirror writes land strictly above FFT_SIZE/2. -/
theorem bin_loop_frame (s : MBState) (i : ℕ) :
    (i < FFT_SIZE / 2 → getBandIndex BAND_LIMITS (binFreq i) = none →
      (binLoop BAND_LIMITS s).real i = s.real i ∧
        (binLoop BAND_LIMITS s).imag i = s.imag i) ∧
      ((binLoop BAND_LIMITS s).real (FFT_SIZE / 2) = s.real (FFT_SIZE / 2) ∧
        (binLoop BAND_LIMITS s).imag (FFT_SIZE / 2) = s.imag (FFT_SIZE / 2)) := by
  constructor
  · intro hlt hnone
    exact foldl_binStep_frame BAND_LIMITS (List.range (FFT_SIZE / 2))
      (fun j hj => List.mem_range.mp hj) s i (Or.inl ⟨hlt, hnone⟩)
  · exact foldl_binStep_frame BAND_LIMITS (List.range (FFT_SIZE / 2))
      (fun j hj => List.mem_range.mp hj) s (FFT_SIZE / 2) (Or.inr rfl)

/-- Witness for C8 at bin 2 (frequency 2*44100/512, about 172 Hz, below
the lowest boundary 250 Hz) on a concrete loop state. -/
theorem bin_loop_frame_witness :
    (binLoop BAND_LIMITS sExample).real 2 = sExample.real 2 ∧
      (binLoop BAND_LIMITS sExample).imag 2 = sExample.imag 2 :=
  (bin_loop_frame sExample 2).1 (by norm_num [FFT_SIZE])
    (by norm_num [BAND_LIMITS, getBandIndex, binFreq, SAMPLE_RATE, FFT_SIZE])

/-- C9: for every band boundary table, including malformed
(non-increasing) ones, and every frequency, the classifier scan of
multiband_wdrc.cpp lines 111-116 returns either none or a band index i
with i + 1 below the table length (a band in 0 .. NUMBANDS); and every
bin of the per-bin loop whose frequency finds no matching interval takes
the defined pass-through path: its buffer values are left unmodified. -/
theorem classifier_total_and_pass_through :
    (∀ (limits : List ℚ) (f : ℚ),
        getBandIndex limits f = none ∨
          ∃ i, getBandIndex limits f = some i ∧ i + 1 < limits.length) ∧
      (∀ (limits : List ℚ) (s : MBState) (t : ℕ), t < FFT_SIZE / 2 →
        getBandIndex limits (binFreq t) = none →
        (binLoop limits s).real t = s.real t ∧
          (binLoop limits s).imag t = s.imag t) := by
  constructor
  · intro limits f
    induction limits with
    | nil => left; rfl
    | cons lo rest ih =>
      cases rest with
      | nil => left; rfl
      | cons hi rest' =>
        by_cases hc : lo ≤ f ∧ f < hi
        · right
          exact ⟨0, by simp [getBandIndex, hc], by simp⟩
        · rcases ih with hnone | ⟨i, hsome, hlen⟩
          · left
            simp [getBandIndex, hc, hnone]
          · right
            refine ⟨i + 1, by simp [getBandIndex, hc, hsome], ?_⟩
            simpa using Nat.succ_lt_succ hlen
  · intro limits s t hlt hnone
    exact foldl_binStep_frame limits (List.range (FFT_SIZE / 2))
      (fun j hj => List.mem_range.mp hj) s t (Or.inl ⟨hlt, hnone⟩)

/-- Witness for C9 on the malformed (non-increasing) boundary table
4, 3: bin 2 finds no interval and passes through unmodified. -/
theorem classifier_total_witness :
    (binLoop [4, 3] sExample).real 2 = sExample.real 2 ∧
      (binLoop [4, 3] sExample).imag 2 = sExample.imag 2 :=
  classifier_total_and_pass_through.2 [4, 3] sExample 2 (by norm_num [FFT_SIZE])
    (by norm_num [getBandIndex, binFreq, SAMPLE_RATE, FFT_SIZE])

/-- Helper: the sum of the N unit-circle samples exp (2 pi I m j / N),
j = 0 .. N-1, equals N when N divides m and 0 otherwise. -/
theorem sum_exp_two_pi_mul (N : ℕ) (hN : 0 < N) (m : ℤ) :
    ∑ j ∈ Finset.range N, Complex.exp (2 * Real.pi * Complex.I * m * j / N) =
      if (N : ℤ) ∣ m then (N : ℂ) else 0 := by
  have hNc : (N : ℂ) ≠ 0 := Nat.cast_ne_zero.mpr hN.ne'
  set z : ℂ := Complex.exp (2 * Real.pi * Complex.I * m / N) with hz
  have hterm : ∀ j : ℕ,
      Complex.exp (2 * Real.pi * Complex.I * m * j / N) = z ^ j := by
    intro j
    rw [hz, ← Complex.exp_nat_mul]
    congr 1
    ring
  simp_rw [hterm]
  by_cases hdvd : (N : ℤ) ∣ m
  · obtain ⟨t, rfl⟩ := hdvd
    have hz1 : z = 1 := by
      rw [hz]
      have harg : (2 * (Real.pi : ℂ) * Complex.I * (((N : ℤ) * t : ℤ) : ℂ) / (N : ℂ))
          = (t : ℂ) * (2 * (Real.pi : ℂ) * Complex.I) := by
        push_cast
        field_simp
        ring
      rw [harg]
      exact Complex.exp_int_mul_two_pi_mul_I t
    rw [if_pos ⟨t, rfl⟩, hz1]
    simp
  · rw [if_neg hdvd]
    have hpi : (2 * (Real.pi : ℂ) * Complex.I) ≠ 0 :=
      mul_ne_zero (mul_ne_zero two_ne_zero (Complex.ofReal_ne_zero.mpr Real.pi_ne_zero))
        Complex.I_ne_zero
    have hz1 : z ≠ 1 := by
      intro h
      rw [hz] at h
      rcases Complex.exp_eq_one_iff.mp h with ⟨n, hn⟩
      have h2 : (2 * (Real.pi : ℂ) * Complex.I) * (m : ℂ)
          = (2 * (Real.pi : ℂ) * Complex.I) * ((n : ℂ) * N) := by
        field_simp at hn
        linear_combination hn
      have h3 : (m : ℂ) = (n : ℂ) * N := mul_left_cancel₀ hpi h2
      have h4 : m = n * (N : ℤ) := by exact_mod_cast h3
      exact hdvd ⟨n, by linarith [h4]⟩
    rw [geom_sum_eq hz1]
    have hzN : z ^ N = 1 := by
      rw [hz, ← Complex.exp_nat_mul]
      have harg : (N : ℂ) * (2 * (Real.pi : ℂ) * Complex.I * (m : ℂ) / (N : ℂ))
          = (m : ℂ) * (2 * (Real.pi : ℂ) * Complex.I) := by
        field_simp
        ring
      rw [harg]
      exact Complex.exp_int_mul_two_pi_mul_I m
    rw [hzN]
    simp

/-- Helper: inversion of the spec-modelled transform pair: the
unnormalized inverse transform of the forward transform scales every
in-range sample by N (spec section 4.1: the forward+inverse round trip
scales amplitude by N). -/
theorem idft_dft (N : ℕ) (hN : 0 < N) (c : ℕ → ℂ) (k : ℕ) (hk : k < N) :
    idftFun N (dftFun N c) k = (N : ℂ) * c k := by
  unfold idftFun dftFun
  simp_rw [Finset.sum_mul]
  rw [Finset.sum_comm]
  have hterm : ∀ l j : ℕ,
      c l * Complex.exp (-(2 * Real.pi * Complex.I * j * l) / N) *
        Complex.exp (2 * Real.pi * Complex.I * j * k / N) =
      c l * Complex.exp (2 * Real.pi * Complex.I * (((k : ℤ) - (l : ℤ) : ℤ) : ℂ) * j / N) := by
    intro l j
    rw [mul_assoc, ← Complex.exp_add]
    congr 2
    push_cast
    ring
  simp_rw [hterm]
  have hinner : ∀ l : ℕ,
      (∑ j ∈ Finset.range N,
        c l * Complex.exp (2 * Real.pi * Complex.I * (((k : ℤ) - (l : ℤ) : ℤ) : ℂ) * j / N)) =
      c l * (if (N : ℤ) ∣ ((k : ℤ) - l) then (N : ℂ) else 0) := by
    intro l
    rw [← Finset.mul_sum, sum_exp_two_pi_mul N hN ((k : ℤ) - l)]
  simp_rw [hinner]
  rw [Finset.sum_eq_single k]
  · rw [if_pos (by simp)]
    ring
  · intro l hl hlk
    rw [if_neg, mul_zero]
    rintro ⟨t, ht⟩
    have hlN := Finset.mem_range.mp hl
    have hne : (k : ℤ) - l ≠ 0 := by
      intro h0
      apply hlk
      omega
    have htne : t ≠ 0 := by
      intro h0
      rw [h0, mul_zero] at ht
      exact hne ht
    have h1 : (1 : ℤ) ≤ |t| := Int.one_le_abs htne
    have h2 : |(k : ℤ) - l| < N := by
      rw [abs_lt]
      constructor <;> omega
    have h3 : |(k : ℤ) - l| = (N : ℤ) * |t| := by
      rw [ht, abs_mul, abs_of_nonneg (by positivity : (0 : ℤ) ≤ (N : ℤ))]
    have hNZ : (0 : ℤ) < (N : ℤ) := by exact_mod_cast hN
    nlinarith
  · intro hk'
    exact absurd (Finset.mem_range.mpr hk) hk'

/-- Helper: with an empty band table the per-bin loop is the identity:
every bin classifies as none and takes the pass-through branch. -/
theorem binLoop_nil (s : MBState) : binLoop [] s = s := by
  have hgen : ∀ (l : List ℕ) (s' : MBState), l.foldl (binStep []) s' = s' := by
    intro l
    induction l with
    | nil => intro s'; rfl
    | cons j l ih =>
      intro s'
      rw [List.foldl_cons, show binStep [] s' j = s' from rfl]
      exact ih s'
  exact hgen _ s

/-- Helper: with an empty band table, MultibandWDRC::process returns the
Hamming-windowed input exactly: the per-bin loop does nothing, the
inverse transform undoes the forward transform up to the factor N, and
the final division by FFT_SIZE cancels it - but the analysis window
applied at multiband_wdrc.cpp line 139 is never inverted. -/
theorem mbProcess_empty_limits (bands : ℕ → WDRC) (input : ℕ → ℝ) (size k : ℕ)
    (hsz : size ≤ FFT_SIZE) (hk : k < size) :
    (mbProcess [] bands input size).1 k = hammingW FFT_SIZE k * input k := by
  unfold mbProcess
  simp only [binLoop_nil]
  have hη : (fun i => (⟨(dftFun FFT_SIZE
      (fun i => ⟨hammingW FFT_SIZE i * (if i < size then input i else 0), 0⟩) i).re,
      (dftFun FFT_SIZE
      (fun i => ⟨hammingW FFT_SIZE i * (if i < size then input i else 0), 0⟩) i).im⟩ : ℂ))
      = dftFun FFT_SIZE
      (fun i => ⟨hammingW FFT_SIZE i * (if i < size then input i else 0), 0⟩) :=
    funext fun i => Complex.eta _
  rw [hη]
  rw [idft_dft FFT_SIZE (by norm_num [FFT_SIZE]) _ k (lt_of_lt_of_le hk hsz)]
  rw [show (((FFT_SIZE : ℂ)) *
      (⟨hammingW FFT_SIZE k * (if k < size then input k else 0), 0⟩ : ℂ)).re
      = (FFT_SIZE : ℝ) * (hammingW FFT_SIZE k * (if k < size then input k else 0)) by
    simp [Complex.mul_re]]
  rw [if_pos hk, mul_div_cancel_left₀ _ (show ((FFT_SIZE : ℝ)) ≠ 0 by norm_num [FFT_SIZE])]

/-- C1 amended: for an empty band configuration table every bin
classifies as none, and MultibandWDRC::process returns the
Hamming-windowed input block, output k = hammingW k * input k, exactly
(in exact arithmetic) - not the input itself: the analysis window applied
before the forward transform (multiband_wdrc.cpp line 139) is never
undone after the inverse transform. -/
theorem pass_through_is_windowed (bands : ℕ → WDRC) (input : ℕ → ℝ) (size k : ℕ)
    (hsz : size ≤ FFT_SIZE) (hk : k < size) :
    (mbProcess [] bands input size).1 k = hammingW FFT_SIZE k * input k :=
  mbProcess_empty_limits bands input size k hsz hk

/-- Witness for the amended C1: a one-sample block with value 1 comes
back as the window factor of sample 0. -/
theorem pass_through_is_windowed_witness :
    (mbProcess [] initialBands onesInput 1).1 0 = hammingW FFT_SIZE 0 * onesInput 0 :=
  pass_through_is_windowed initialBands onesInput 1 0 (by norm_num [FFT_SIZE]) (by norm_num)

/-- Counterexample to C1 as stated: with an empty band table and the
normalized one-sample input block 1.0, the output sample is the windowed
value 0.08, whose distance to the input 1.0 is 0.92, far above the
claimed round-trip error bound 1e-4. -/
theorem pass_through_identity_cex :
    ¬ |(mbProcess [] initialBands onesInput 1).1 0 - onesInput 0| < 1e-4 := by
  rw [mbProcess_empty_limits initialBands onesInput 1 0 (by norm_num [FFT_SIZE])
    (by norm_num)]
  have hw : hammingW FFT_SIZE 0 = 0.08 := by
    unfold hammingW
    have harg : (2 * Real.pi * ((0 : ℕ) : ℝ) / ((FFT_SIZE : ℝ) - 1)) = 0 := by norm_num
    rw [harg, Real.cos_zero]
    norm_num
  rw [hw]
  show ¬ |(0.08 : ℝ) * 1 - 1| < 1e-4
  rw [show ((0.08 : ℝ) * 1 - 1) = -(0.92) by norm_num, abs_neg,
    abs_of_nonneg (by norm_num)]
  norm_num

/-- Helper: 2.29 < log 10, via exp 2.29 < 10 from the decimal bounds on
exp 1 and the elementary upper bound exp t <= 1 / (1 - t). -/
theorem log_ten_gt_229 : (2.29 : ℝ) < Real.log 10 := by
  have h8 : Real.exp 0.03625 ≤ (0.96375 : ℝ)⁻¹ := by
    have h := Real.add_one_le_exp (-(0.03625 : ℝ))
    rw [Real.exp_neg] at h
    have hp : (0 : ℝ) < Real.exp 0.03625 := Real.exp_pos _
    have h' : (0.96375 : ℝ) ≤ (Real.exp 0.03625)⁻¹ := by linarith
    calc Real.exp 0.03625 = ((Real.exp 0.03625)⁻¹)⁻¹ := (inv_inv _).symm
      _ ≤ (0.96375 : ℝ)⁻¹ := inv_anti₀ (by norm_num) h'
  have h29 : Real.exp 0.29 ≤ ((0.96375 : ℝ)⁻¹) ^ (8 : ℕ) := by
    rw [show (0.29 : ℝ) = ((8 : ℕ) : ℝ) * 0.03625 by norm_num, Real.exp_nat_mul]
    exact pow_le_pow_left₀ (Real.exp_pos _).le h8 8
  have hsplit : Real.exp 2.29 = Real.exp 1 * Real.exp 1 * Real.exp 0.29 := by
    rw [← Real.exp_add, ← Real.exp_add]
    norm_num
  have h1 : Real.exp 1 < 2.7182818286 := Real.exp_one_lt_d9
  have he : Real.exp 2.29 < 10 := by
    have hb : Real.exp 2.29 < 2.7182818286 * 2.7182818286 * ((0.96375 : ℝ)⁻¹) ^ (8 : ℕ) := by
      rw [hsplit]
      have e0 : (0 : ℝ) < Real.exp 1 := Real.exp_pos 1
      have e29 : (0 : ℝ) < Real.exp 0.29 := Real.exp_pos _
      calc Real.exp 1 * Real.exp 1 * Real.exp 0.29
          ≤ Real.exp 1 * Real.exp 1 * ((0.96375 : ℝ)⁻¹) ^ (8 : ℕ) :=
            mul_le_mul_of_nonneg_left h29 (by positivity)
        _ < 2.7182818286 * 2.7182818286 * ((0.96375 : ℝ)⁻¹) ^ (8 : ℕ) := by
            have hq : (0 : ℝ) < ((0.96375 : ℝ)⁻¹) ^ (8 : ℕ) := by positivity
            have : Real.exp 1 * Real.exp 1 < 2.7182818286 * 2.7182818286 := by nlinarith
            exact mul_lt_mul_of_pos_right this hq
    refine lt_of_lt_of_le hb ?_
    norm_num
  have hlog := Real.log_lt_log (Real.exp_pos 2.29) he
  rwa [Real.log_exp] at hlog

/-- Helper: log 10 < 2.31, via 10 < exp 2.31 from the decimal bounds on
exp 1 and the elementary lower bound 1 + t <= exp t. -/
theorem log_ten_lt_231 : Real.log 10 < 2.31 := by
  have h8 : (1.03875 : ℝ) ≤ Real.exp 0.03875 := by
    have := Real.add_one_le_exp (0.03875 : ℝ)
    linarith
  have h31 : (1.03875 : ℝ) ^ (8 : ℕ) ≤ Real.exp 0.31 := by
    rw [show (0.31 : ℝ) = ((8 : ℕ) : ℝ) * 0.03875 by norm_num, Real.exp_nat_mul]
    exact pow_le_pow_left₀ (by norm_num) h8 8
  have hsplit : Real.exp 2.31 = Real.exp 1 * Real.exp 1 * Real.exp 0.31 := by
    rw [← Real.exp_add, ← Real.exp_add]
    norm_num
  have h1 : (2.7182818283 : ℝ) < Real.exp 1 := Real.exp_one_gt_d9
  have he : (10 : ℝ) < Real.exp 2.31 := by
    calc (10 : ℝ) < 2.7182818283 * 2.7182818283 * (1.03875 : ℝ) ^ (8 : ℕ) := by norm_num
      _ ≤ Real.exp 1 * Real.exp 1 * (1.03875 : ℝ) ^ (8 : ℕ) := by
          have hq : (0 : ℝ) ≤ (1.03875 : ℝ) ^ (8 : ℕ) := by positivity
          have : (2.7182818283 : ℝ) * 2.7182818283 ≤ Real.exp 1 * Real.exp 1 := by nlinarith
          exact mul_le_mul_of_nonneg_right this hq
      _ ≤ Real.exp 1 * Real.exp 1 * Real.exp 0.31 :=
          mul_le_mul_of_nonneg_left h31 (by positivity)
      _ = Real.exp 2.31 := hsplit.symm
  have hlog := Real.log_lt_log (by norm_num : (0 : ℝ) < 10) he
  rwa [Real.log_exp] at hlog

/-- Helper: two-sided bounds on 10 ^ (-1/4), the linear multiplier the
spec attributes to the concrete scenario. -/
theorem rpow_neg_quarter_bounds :
    (0.5623 : ℝ) < (10 : ℝ) ^ (-(1 / 4) : ℝ) ∧ (10 : ℝ) ^ (-(1 / 4) : ℝ) < 0.56237 := by
  have hqpos : (0 : ℝ) < (10 : ℝ) ^ (-(1 / 4) : ℝ) := Real.rpow_pos_of_pos (by norm_num) _
  have hq4 : ((10 : ℝ) ^ (-(1 / 4) : ℝ)) ^ (4 : ℕ) = 1 / 10 := by
    rw [← Real.rpow_natCast ((10 : ℝ) ^ (-(1 / 4) : ℝ)) 4,
      ← Real.rpow_mul (by norm_num : (0 : ℝ) ≤ 10)]
    rw [show (-(1 / 4) * ((4 : ℕ) : ℝ) : ℝ) = -1 by norm_num, Real.rpow_neg_one]
    norm_num
  constructor
  · by_contra h
    push_neg at h
    have hle : ((10 : ℝ) ^ (-(1 / 4) : ℝ)) ^ (4 : ℕ) ≤ (0.5623 : ℝ) ^ (4 : ℕ) :=
      pow_le_pow_left₀ hqpos.le h 4
    rw [hq4] at hle
    norm_num at hle
  · by_contra h
    push_neg at h
    have hle : (0.56237 : ℝ) ^ (4 : ℕ) ≤ ((10 : ℝ) ^ (-(1 / 4) : ℝ)) ^ (4 : ℕ) :=
      pow_le_pow_left₀ (by norm_num) h 4
    rw [hq4] at hle
    norm_num at hle

/-- Helper numeric core for the concrete scenario: for any dB difference
D strictly between 20.0678 and 20.0681 the linear multiplier
10 ^ ((-D + 15) / 20) lies strictly between 0.5578 and 0.5581. -/
theorem scenario_core (D : ℝ) (hD1 : (20.0678 : ℝ) < D) (hD2 : D < 20.0681) :
    (0.5578 : ℝ) < (10 : ℝ) ^ ((-D + 15) / 20) ∧
      (10 : ℝ) ^ ((-D + 15) / 20) < 0.5581 := by
  have hsplit : (10 : ℝ) ^ ((-D + 15) / 20) =
      (10 : ℝ) ^ (-(1 / 4) : ℝ) * (10 : ℝ) ^ (-((D - 20) / 20)) := by
    rw [← Real.rpow_add (by norm_num : (0 : ℝ) < 10)]
    congr 1
    ring
  obtain ⟨hq1, hq2⟩ := rpow_neg_quarter_bounds
  have hqpos : (0 : ℝ) < (10 : ℝ) ^ (-(1 / 4) : ℝ) := Real.rpow_pos_of_pos (by norm_num) _
  set t := (D - 20) / 20 with ht
  have ht1 : (0.00339 : ℝ) < t := by rw [ht]; linarith
  have ht2 : t < 0.003405 := by rw [ht]; linarith
  have hL1 := log_ten_gt_229
  have hL2 := log_ten_lt_231
  have hLpos : (0 : ℝ) < Real.log 10 := by linarith
  have hLt1 : (0.0077631 : ℝ) < Real.log 10 * t := by nlinarith
  have hLt2 : Real.log 10 * t < 0.0078656 := by nlinarith
  have hr_def : (10 : ℝ) ^ (-t) = Real.exp (Real.log 10 * (-t)) :=
    Real.rpow_def_of_pos (by norm_num) _
  have hrpos : (0 : ℝ) < (10 : ℝ) ^ (-t) := Real.rpow_pos_of_pos (by norm_num) _
  have hrlo : (0.9921344 : ℝ) < (10 : ℝ) ^ (-t) := by
    rw [hr_def]
    have h := Real.add_one_le_exp (Real.log 10 * (-t))
    nlinarith
  have hrhi : (10 : ℝ) ^ (-t) < 0.9923 := by
    rw [hr_def, show Real.log 10 * (-t) = -(Real.log 10 * t) by ring, Real.exp_neg]
    have h1 : (1 : ℝ) + Real.log 10 * t ≤ Real.exp (Real.log 10 * t) := by
      linarith [Real.add_one_le_exp (Real.log 10 * t)]
    have hp : (0 : ℝ) < 1 + Real.log 10 * t := by linarith
    calc (Real.exp (Real.log 10 * t))⁻¹ ≤ (1 + Real.log 10 * t)⁻¹ :=
          inv_anti₀ hp h1
      _ < (1.0077631 : ℝ)⁻¹ := inv_strictAnti₀ (by norm_num) (by linarith)
      _ ≤ 0.9923 := by norm_num
  rw [hsplit]
  constructor
  · have h1 : (0.5623 : ℝ) * (10 : ℝ) ^ (-t) < (10 : ℝ) ^ (-(1 / 4) : ℝ) * (10 : ℝ) ^ (-t) :=
      mul_lt_mul_of_pos_right hq1 hrpos
    have h2 : (0.5623 : ℝ) * 0.9921344 < (0.5623 : ℝ) * (10 : ℝ) ^ (-t) :=
      mul_lt_mul_of_pos_left hrlo (by norm_num)
    nlinarith
  · have h1 : (10 : ℝ) ^ (-(1 / 4) : ℝ) * (10 : ℝ) ^ (-t) < (0.56237 : ℝ) * (10 : ℝ) ^ (-t) :=
      mul_lt_mul_of_pos_right hq2 hrpos
    have h2 : (0.56237 : ℝ) * (10 : ℝ) ^ (-t) < (0.56237 : ℝ) * 0.9923 :=
      mul_lt_mul_of_pos_left hrhi (by norm_num)
    nlinarith

/-- Helper: the full concrete-scenario computation on the band-0
compressor with envelope -30 dB and input magnitude 1.0: the call takes
the attack branch and then the full-compression branch, the computed
gain_db equals the updated diff and lies strictly between 20.067 and
20.069 dB (not 20 dB), and the returned output lies strictly between
0.5578 and 0.5581 (the clamp does not fire). -/
theorem wScenario_facts :
    (20.067 < wScenario.compressionGain
        (wScenario.updateEnvelope (WDRC.linear_to_db 1) - wScenario.threshold) ∧
      wScenario.compressionGain
        (wScenario.updateEnvelope (WDRC.linear_to_db 1) - wScenario.threshold) < 20.069) ∧
      (0.5578 < (wScenario.process 1).2 ∧ (wScenario.process 1).2 < 0.5581) := by
  obtain ⟨hd0, hd8⟩ := linear_to_db_one_bounds
  have haval : wScenario.alpha_attack = Real.exp (-(1 / 441)) := by
    show Real.exp (-1 / ((SAMPLE_RATE : ℝ) * 0.010)) = _
    norm_num [SAMPLE_RATE]
  have halo : (440 : ℝ) / 441 ≤ wScenario.alpha_attack := by
    rw [haval]
    have := Real.add_one_le_exp (-(1 / 441) : ℝ)
    linarith
  have hahi : wScenario.alpha_attack ≤ 441 / 442 := by
    rw [haval, Real.exp_neg]
    have h1 : (442 : ℝ) / 441 ≤ Real.exp (1 / 441) := by
      have := Real.add_one_le_exp ((1 : ℝ) / 441)
      linarith
    calc (Real.exp (1 / 441))⁻¹ ≤ ((442 : ℝ) / 441)⁻¹ := inv_anti₀ (by norm_num) h1
      _ = 441 / 442 := by norm_num
  set d := WDRC.linear_to_db 1 with hdd
  set a := wScenario.alpha_attack with haa
  have henvv : wScenario.envelope = (-30 : ℝ) := rfl
  have hthr : wScenario.threshold = (-50 : ℝ) := rfl
  have hknee : wScenario.knee_width = (10 : ℝ) := rfl
  have hrat : wScenario.ratio = (2 : ℝ) := rfl
  have hbg : wScenario.band_gain = (15 : ℝ) := rfl
  have henv : wScenario.updateEnvelope d = a * (-30) + (1 - a) * d := by
    unfold WDRC.updateEnvelope
    rw [← haa, henvv, if_pos (by linarith : d > (-30 : ℝ))]
  have hprod1 : 0 < (1 - a) * d := mul_pos (by linarith) hd0
  have hprod2 : (1 - a) * d ≤ d := by
    have h := mul_le_mul_of_nonneg_right (show (1 - a) ≤ 1 by linarith) hd0.le
    rwa [one_mul] at h
  have hD1 : (20.0678 : ℝ) < wScenario.updateEnvelope d - wScenario.threshold := by
    rw [henv, hthr]
    linarith
  have hD2 : wScenario.updateEnvelope d - wScenario.threshold < 20.0681 := by
    rw [henv, hthr]
    linarith
  have hDpos : (0 : ℝ) < wScenario.updateEnvelope d - wScenario.threshold := by linarith
  have hgain : wScenario.compressionGain (wScenario.updateEnvelope d - wScenario.threshold)
      = wScenario.updateEnvelope d - wScenario.threshold := by
    unfold WDRC.compressionGain
    have h5 : ¬(|wScenario.updateEnvelope d - wScenario.threshold| ≤
        wScenario.knee_width / 2) := by
      rw [hknee, abs_of_pos hDpos]
      push_neg
      linarith
    have h6 : wScenario.updateEnvelope d - wScenario.threshold > wScenario.knee_width / 2 := by
      rw [hknee]
      linarith
    rw [if_neg h5, if_pos h6, hrat]
    ring
  have hcore := scenario_core (wScenario.updateEnvelope d - wScenario.threshold) hD1 hD2
  have hraw : (1 : ℝ) * WDRC.db_to_linear
      (-(wScenario.compressionGain (wScenario.updateEnvelope d - wScenario.threshold)) +
        wScenario.band_gain)
      = (10 : ℝ) ^ ((-(wScenario.updateEnvelope d - wScenario.threshold) + 15) / 20) := by
    rw [hgain, hbg, one_mul]
    rfl
  have hout : (wScenario.process 1).2
      = (10 : ℝ) ^ ((-(wScenario.updateEnvelope d - wScenario.threshold) + 15) / 20) := by
    simp only [WDRC.process]
    rw [← hdd, hraw]
    rw [if_neg (by push_neg; linarith [hcore.2] :
      ¬((10 : ℝ) ^ ((-(wScenario.updateEnvelope d - wScenario.threshold) + 15) / 20) > 0.99))]
    rw [if_neg (by push_neg; linarith [hcore.1] :
      ¬((10 : ℝ) ^ ((-(wScenario.updateEnvelope d - wScenario.threshold) + 15) / 20) < -0.99))]
  refine ⟨⟨?_, ?_⟩, ?_, ?_⟩
  · rw [hgain]
    linarith
  · rw [hgain]
    linarith
  · rw [hout]
    exact hcore.1
  · rw [hout]
    exact hcore.2

/-- Counterexample to C6 as stated: in the concrete scenario (band-0
parameters, envelope standing at -30 dB, input magnitude 1.0) the code
first updates the envelope (wdrc.cpp lines 153-159), so the computed
gain_db is not (2-1)*20 = 20 dB, and the returned pre-clamp output is
more than 0.004 away from the claimed multiplier value 0.5623. -/
theorem scenario_cex :
    wScenario.compressionGain
        (wScenario.updateEnvelope (WDRC.linear_to_db 1) - wScenario.threshold) ≠ 20 ∧
      0.004 < |(wScenario.process 1).2 - 0.5623| := by
  obtain ⟨⟨hg1, hg2⟩, ho1, ho2⟩ := wScenario_facts
  constructor
  · intro h
    rw [h] at hg1
    norm_num at hg1
  · rw [abs_of_neg (by linarith : (wScenario.process 1).2 - 0.5623 < 0)]
    linarith

/-- C6 amended: in the concrete scenario the call takes the
full-compression branch, but the envelope is first updated toward the
input level, so diff = 50 + alpha_attack * (-30) + (1 - alpha_attack) *
input_db, the computed gain_db lies strictly between 20.067 and 20.069 dB
(not exactly 20 dB), and the returned output - the clamp does not fire -
lies strictly between 0.5578 and 0.5581, about 0.558; the spec's figures
20 dB and 0.5623 describe the idealized frozen envelope only. -/
theorem scenario_amended :
    (20.067 < wScenario.compressionGain
        (wScenario.updateEnvelope (WDRC.linear_to_db 1) - wScenario.threshold) ∧
      wScenario.compressionGain
        (wScenario.updateEnvelope (WDRC.linear_to_db 1) - wScenario.threshold) < 20.069) ∧
      (0.5578 < (wScenario.process 1).2 ∧ (wScenario.process 1).2 < 0.5581) :=
  wScenario_facts

end Aurivox
